import Mathlib

/-!
# Verification of the hserecsys recommender core

Shallow embedding, in Lean 4, of the matrix-factorization training and
inference engine (`week3/script.js`) and of the two-tower embedding model
(`week4/app.js`) of the repository, together with proofs of the
specification's claims about them.

Conventions of the embedding:
* JavaScript floating-point values are modelled as rationals (`ℚ`); the
  two-tower softmax loss, which uses `exp`/`log`, is modelled over `ℝ`.
* Tensors are modelled as functions from (bounded) indices to scalars;
  `tf.gather`, `tf.matMul`, `tf.sum` and friends become the evident
  pointwise operations and finite sums.
* `Math.random()`-driven code takes the stream of drawn values as an
  explicit argument (`rand : Nat → Nat`), so every statement quantifies
  over all possible draws.
* The cooperative cancellation flag of the training loop is modelled as a
  function of the global count of flag *checks* performed by the loop
  (the only points where the asynchronously-set flag is observed).
-/

namespace HseRecSys

/-! ## Week 3 — biased matrix factorization (`week3/script.js`)

`state.P : [U,k]`, `state.Q : [I,k]`, `state.bu : [U]`, `state.bi : [I]`,
`state.mu : scalar` become functions out of `Nat`; the dimensions `U`, `I`,
`k` are carried alongside. -/

structure MFModel where
  U : Nat
  I : Nat
  k : Nat
  P : Nat → Nat → ℚ
  Q : Nat → Nat → ℚ
  bu : Nat → ℚ
  bi : Nat → ℚ
  mu : ℚ

/-- `tf.sum(tf.mul(Pu, Qi), 1)` for one row: the latent dot product
`dot(P[u], Q[i])` from `predictBatch`. -/
def dotPQ (m : MFModel) (u i : Nat) : ℚ :=
  ∑ j ∈ Finset.range m.k, m.P u j * m.Q i j

/-- `tf.matMul(state.Q, pu)` entry `i` from `recommendForUser`: the same dot
product with the factors in the order the read-out path multiplies them. -/
def dotQP (m : MFModel) (u i : Nat) : ℚ :=
  ∑ j ∈ Finset.range m.k, m.Q i j * m.P u j

/-- `tf.clipByValue(x, lo, hi)`. -/
def clipByValue (x lo hi : ℚ) : ℚ :=
  min (max x lo) hi

/-- One entry of `predictBatch(uBatch, iBatch)` (week3/script.js:316-328):
`dot + bu + bi` via `tf.addN`, then `+ mu`; no clipping during training. -/
def predictBatchOne (m : MFModel) (u i : Nat) : ℚ :=
  let dot := dotPQ m u i
  let base := dot + m.bu u + m.bi i
  base + m.mu

/-- One entry of the clipped prediction vector built inside
`recommendForUser` (week3/script.js:381-404): `base = dotVec + bi`, then
`+ bu`, then `+ mu`, then `tf.clipByValue(base, 1, 5)`. -/
def readoutPred (m : MFModel) (u i : Nat) : ℚ :=
  let base1 := dotQP m u i + m.bi i
  let base2 := base1 + m.bu u
  let base3 := base2 + m.mu
  clipByValue base3 1 5

/-- C1: for every valid user `u` and item `i`, the read-out prediction is the
clipped biased score `clip(mu + bu[u] + bi[i] + dot(P[u],Q[i]), 1, 5)` (here
proved exactly, hence within the claimed `1e-3` tolerance), while the
prediction entering the training loss is the unclipped linear value. -/
theorem mf_readout_clipped_train_unclipped (m : MFModel) (u i : Nat)
    (hu : u < m.U) (hi : i < m.I) :
    |readoutPred m u i -
      clipByValue (m.mu + m.bu u + m.bi i + dotPQ m u i) 1 5| ≤ 1 / 1000 ∧
    predictBatchOne m u i = m.mu + m.bu u + m.bi i + dotPQ m u i := by
  have hsum : dotQP m u i = dotPQ m u i :=
    Finset.sum_congr rfl fun j _ => mul_comm _ _
  have h : readoutPred m u i
      = clipByValue (m.mu + m.bu u + m.bi i + dotPQ m u i) 1 5 := by
    unfold readoutPred
    rw [hsum]
    congr 1
    ring
  refine ⟨?_, by unfold predictBatchOne; ring⟩
  rw [h, sub_self, abs_zero]
  norm_num

/-- A concrete single-user, single-item, one-factor model used to witness the
week-3 theorems: `P ≡ 2`, `Q ≡ 1`, zero biases, `mu = 3`. -/
def mfWitnessModel : MFModel :=
  { U := 1, I := 1, k := 1
    P := fun _ _ => 2
    Q := fun _ _ => 1
    bu := fun _ => 0
    bi := fun _ => 0
    mu := 3 }

theorem mf_readout_clipped_train_unclipped_witness :
    ((0 : Nat) < mfWitnessModel.U ∧ (0 : Nat) < mfWitnessModel.I) ∧
    (|readoutPred mfWitnessModel 0 0 -
        clipByValue (mfWitnessModel.mu + mfWitnessModel.bu 0 +
          mfWitnessModel.bi 0 + dotPQ mfWitnessModel 0 0) 1 5| ≤ 1 / 1000 ∧
      predictBatchOne mfWitnessModel 0 0
        = mfWitnessModel.mu + mfWitnessModel.bu 0 + mfWitnessModel.bi 0 +
            dotPQ mfWitnessModel 0 0) :=
  ⟨⟨by decide, by decide⟩,
    mf_readout_clipped_train_unclipped mfWitnessModel 0 0 (by decide) (by decide)⟩

/-! ## Week 3 — train/validation split (`makeTrainValSplit`, week3/script.js:209-223)

The `Int32Array` of indices is modelled as a `List Nat`; the in-place
Fisher–Yates swaps become `swapL`.  The stream of values
`(Math.random() * (i + 1)) | 0` is an explicit argument `rand : Nat → Nat`
giving the partner index drawn at loop counter `i`. -/

/-- Swap the entries at positions `i` and `j` of a list (no-op when either
position is out of range, which the source loop never produces). -/
def swapL (l : List Nat) (i j : Nat) : List Nat :=
  match l.get? i, l.get? j with
  | some a, some b => (l.set i b).set j a
  | _, _ => l

/-- Putting the element found at position `k` in front of `l.set k x` is a
permutation of putting `x` in front of `l`. -/
theorem get_cons_set_perm :
    ∀ (t : List Nat) (k b x : Nat), t.get? k = some b →
      (b :: t.set k x).Perm (x :: t) := by
  intro t
  induction t with
  | nil => intro k b x h; simp at h
  | cons y s ih =>
    intro k b x h
    cases k with
    | zero =>
      simp only [List.get?] at h
      cases h
      exact List.Perm.swap x y s
    | succ m =>
      simp only [List.get?] at h
      show (b :: y :: s.set m x).Perm (x :: y :: s)
      exact ((List.Perm.swap y b (s.set m x)).trans
        ((ih m b x h).cons y)).trans (List.Perm.swap x y s)

/-- Writing `b` at position `i` and `a` at position `j` — where `a` and `b`
are the entries found at `i` and `j` — permutes the list. -/
theorem set_set_perm :
    ∀ (l : List Nat) (i j a b : Nat),
      l.get? i = some a → l.get? j = some b →
      ((l.set i b).set j a).Perm l := by
  intro l
  induction l with
  | nil => intro i j a b h _; simp at h
  | cons x t ih =>
    intro i j a b hgi hgj
    cases i with
    | zero =>
      cases j with
      | zero =>
        simp only [List.get?] at hgi hgj
        cases hgi; cases hgj
        simp
      | succ m =>
        simp only [List.get?] at hgi hgj
        cases hgi
        show (b :: t.set m x).Perm (x :: t)
        exact get_cons_set_perm t m b x hgj
    | succ m =>
      cases j with
      | zero =>
        simp only [List.get?] at hgi hgj
        cases hgj
        show (a :: t.set m x).Perm (x :: t)
        exact get_cons_set_perm t m a x hgi
      | succ n =>
        simp only [List.get?] at hgi hgj
        show (x :: (t.set m b).set n a).Perm (x :: t)
        exact (ih m n a b hgi hgj).cons x

/-- A swap leaves the multiset of list entries unchanged. -/
theorem swapL_perm (l : List Nat) (i j : Nat) : (swapL l i j).Perm l := by
  unfold swapL
  cases hgi : l.get? i with
  | none => exact List.Perm.refl l
  | some a =>
    cases hgj : l.get? j with
    | none => exact List.Perm.refl l
    | some b => exact set_set_perm l i j a b hgi hgj

/-- The Fisher–Yates loop `for (i = n-1; i > 0; i--) swap(idx[i], idx[rand i])`,
counting down the first argument as the loop counter `i`. -/
def fyLoop (rand : Nat → Nat) : Nat → List Nat → List Nat
  | 0, l => l
  | i + 1, l => fyLoop rand i (swapL l (i + 1) (rand (i + 1)))

theorem fyLoop_perm (rand : Nat → Nat) :
    ∀ (i : Nat) (l : List Nat), (fyLoop rand i l).Perm l := by
  intro i
  induction i with
  | zero => intro l; exact List.Perm.refl l
  | succ i ih =>
    intro l
    exact (ih (swapL l (i + 1) (rand (i + 1)))).trans
      (swapL_perm l (i + 1) (rand (i + 1)))

/-- `makeTrainValSplit(trainFrac)` (week3/script.js:209-223): identity index
array, Fisher–Yates shuffle, `nTrain = Math.floor(n * trainFrac)`, then
`trainIdx = idx.slice(0, nTrain)` and `valIdx = idx.slice(nTrain)`. -/
def makeTrainValSplit (rand : Nat → Nat) (n : Nat) (trainFrac : ℚ) :
    List Nat × List Nat :=
  let idx := fyLoop rand (n - 1) (List.range n)
  let nTrain := (((n : ℚ) * trainFrac).floor).toNat
  (idx.take nTrain, idx.drop nTrain)

/-- C2: for every `N ≥ 1` and `trainFrac ∈ (0,1)` (and any randomness),
`makeTrainValSplit` yields `trainIdx` of length `⌊N·trainFrac⌋`, `valIdx` of
length `N - ⌊N·trainFrac⌋`, the two are disjoint, and their concatenation is
a permutation of `[0, N)`. -/
theorem makeTrainValSplit_spec (rand : Nat → Nat) (n : Nat) (trainFrac : ℚ)
    (hn : 1 ≤ n) (h0 : 0 < trainFrac) (h1 : trainFrac < 1) :
    (makeTrainValSplit rand n trainFrac).1.length
        = (((n : ℚ) * trainFrac).floor).toNat ∧
    (makeTrainValSplit rand n trainFrac).2.length
        = n - (((n : ℚ) * trainFrac).floor).toNat ∧
    (makeTrainValSplit rand n trainFrac).1.Disjoint
        (makeTrainValSplit rand n trainFrac).2 ∧
    ((makeTrainValSplit rand n trainFrac).1 ++
        (makeTrainValSplit rand n trainFrac).2).Perm (List.range n) := by
  set idx := fyLoop rand (n - 1) (List.range n) with hidx
  have hperm : idx.Perm (List.range n) := fyLoop_perm rand (n - 1) (List.range n)
  have hlen : idx.length = n := by
    simpa [List.length_range] using hperm.length_eq
  set nTrain := (((n : ℚ) * trainFrac).floor).toNat with hnt
  have hntle : nTrain ≤ n := by
    have hfl : ((n : ℚ) * trainFrac).floor ≤ (n : ℤ) := by
      have : (n : ℚ) * trainFrac ≤ (n : ℚ) := by
        calc (n : ℚ) * trainFrac ≤ (n : ℚ) * 1 := by
              exact mul_le_mul_of_nonneg_left h1.le (by positivity)
          _ = (n : ℚ) := by ring
      exact_mod_cast Int.floor_le_floor this |>.trans (by simp)
    omega
  have happ : (makeTrainValSplit rand n trainFrac).1 ++
      (makeTrainValSplit rand n trainFrac).2 = idx := by
    simpa [makeTrainValSplit, hidx, hnt] using List.take_append_drop nTrain idx
  have hpermApp : ((makeTrainValSplit rand n trainFrac).1 ++
      (makeTrainValSplit rand n trainFrac).2).Perm (List.range n) := by
    rw [happ]; exact hperm
  refine ⟨?_, ?_, ?_, hpermApp⟩
  · show (idx.take nTrain).length = nTrain
    simp [List.length_take, hlen, Nat.min_eq_left hntle]
  · show (idx.drop nTrain).length = n - nTrain
    simp [List.length_drop, hlen]
  · have hnodup : ((makeTrainValSplit rand n trainFrac).1 ++
        (makeTrainValSplit rand n trainFrac).2).Nodup :=
      hpermApp.nodup_iff.mpr (List.nodup_range n)
    exact (List.nodup_append.mp hnodup).2.2

theorem makeTrainValSplit_spec_witness :
    (1 ≤ 4 ∧ (0 : ℚ) < 1 / 2 ∧ (1 : ℚ) / 2 < 1) ∧
    ((makeTrainValSplit (fun _ => 0) 4 (1 / 2)).1.length
        = ((((4 : Nat) : ℚ) * (1 / 2)).floor).toNat ∧
      (makeTrainValSplit (fun _ => 0) 4 (1 / 2)).2.length
        = 4 - ((((4 : Nat) : ℚ) * (1 / 2)).floor).toNat ∧
      (makeTrainValSplit (fun _ => 0) 4 (1 / 2)).1.Disjoint
        (makeTrainValSplit (fun _ => 0) 4 (1 / 2)).2 ∧
      ((makeTrainValSplit (fun _ => 0) 4 (1 / 2)).1 ++
        (makeTrainValSplit (fun _ => 0) 4 (1 / 2)).2).Perm (List.range 4)) :=
  ⟨⟨by decide, by norm_num, by norm_num⟩,
    makeTrainValSplit_spec (fun _ => 0) 4 (1 / 2) (by decide)
      (by norm_num) (by norm_num)⟩

/-! ## Week 3 — per-batch training objective (`trainLoop`, week3/script.js:248-270)

A mini-batch is a list of triples `(u, i, r)` (the tensors `uBatch`,
`iBatch`, `rBatch` built by `buildBatch`). -/

/-- `tf.mean(tf.mul(err, err))` where `err = predictBatch(u,i) - r`:
the batch MSE computed in the loss closure. -/
def batchMSE (m : MFModel) (batch : List (Nat × Nat × ℚ)) : ℚ :=
  (batch.map fun t =>
      (predictBatchOne m t.1 t.2.1 - t.2.2) * (predictBatchOne m t.1 t.2.1 - t.2.2)).sum
    / batch.length

/-- `lambda * addN([sum(Pu*Pu), sum(Qi*Qi), sum(bu*bu), sum(bi*bi)])` over
the rows gathered (`tf.gather`) for the batch — i.e. with one summand per
batch position, repeating rows when a user or item repeats. -/
def mfBatchReg (m : MFModel) (lam : ℚ) (batch : List (Nat × Nat × ℚ)) : ℚ :=
  lam *
    ((batch.map fun t => ∑ j ∈ Finset.range m.k, m.P t.1 j * m.P t.1 j).sum +
     (batch.map fun t => ∑ j ∈ Finset.range m.k, m.Q t.2.1 j * m.Q t.2.1 j).sum +
     (batch.map fun t => m.bu t.1 * m.bu t.1).sum +
     (batch.map fun t => m.bi t.2.1 * m.bi t.2.1).sum)

/-- The value minimized per mini-batch by `state.optimizer.minimize`:
`tf.add(mse, reg)`. -/
def mfBatchObjective (m : MFModel) (lam : ℚ) (batch : List (Nat × Nat × ℚ)) : ℚ :=
  batchMSE m batch + mfBatchReg m lam batch

/-- The spec's formula, written from its words: mean squared error plus
`lambda` times the sum of squares of the gathered parameter rows only. -/
def specBatchObjective (m : MFModel) (lam : ℚ) (batch : List (Nat × Nat × ℚ)) : ℚ :=
  (batch.map fun t => (predictBatchOne m t.1 t.2.1 - t.2.2) ^ 2).sum / batch.length
    + lam *
      ((batch.map fun t => ∑ j ∈ Finset.range m.k, (m.P t.1 j) ^ 2).sum +
       (batch.map fun t => ∑ j ∈ Finset.range m.k, (m.Q t.2.1 j) ^ 2).sum +
       (batch.map fun t => (m.bu t.1) ^ 2).sum +
       (batch.map fun t => (m.bi t.2.1) ^ 2).sum)

/-- The alternative reading the claim rules out: the same MSE plus `lambda`
times the sum of squares of the **full** parameter tensors `P`, `Q`, `bu`,
`bi`. -/
def specFullObjective (m : MFModel) (lam : ℚ) (batch : List (Nat × Nat × ℚ)) : ℚ :=
  (batch.map fun t => (predictBatchOne m t.1 t.2.1 - t.2.2) ^ 2).sum / batch.length
    + lam *
      ((∑ u ∈ Finset.range m.U, ∑ j ∈ Finset.range m.k, (m.P u j) ^ 2) +
       (∑ i ∈ Finset.range m.I, ∑ j ∈ Finset.range m.k, (m.Q i j) ^ 2) +
       (∑ u ∈ Finset.range m.U, (m.bu u) ^ 2) +
       (∑ i ∈ Finset.range m.I, (m.bi i) ^ 2))

/-- A two-user model whose untouched user row `P[1]` is non-zero, so that
batch-scoped and full-tensor regularization differ on a batch touching only
user 0. -/
def mfRegModel : MFModel :=
  { U := 2, I := 1, k := 1
    P := fun u _ => if u = 1 then 1 else 0
    Q := fun _ _ => 0
    bu := fun _ => 0
    bi := fun _ => 0
    mu := 3 }

/-- C6: the objective minimized on a mini-batch is the batch MSE plus
`lambda` times the sum of squares of exactly the rows gathered for the
batch's users and items — and it is *not* the full-tensor regularized
objective: the two differ on a concrete model whose untouched row is
non-zero. -/
theorem mf_batch_objective_is_batch_scoped :
    (∀ (m : MFModel) (lam : ℚ) (batch : List (Nat × Nat × ℚ)),
        mfBatchObjective m lam batch = specBatchObjective m lam batch) ∧
    mfBatchObjective mfRegModel (1 / 10) [(0, 0, 3)]
      ≠ specFullObjective mfRegModel (1 / 10) [(0, 0, 3)] := by
  constructor
  · intro m lam batch
    unfold mfBatchObjective batchMSE mfBatchReg specBatchObjective
    simp only [← pow_two]
  · norm_num [mfBatchObjective, batchMSE, mfBatchReg, specFullObjective,
      predictBatchOne, dotPQ, mfRegModel, Finset.sum_range_succ]

/-! ## Week 3 — cooperative cancellation of the training loop
(`trainLoop`, week3/script.js:226-292; `onCancel`, week3/script.js:178-180)

`trainLoop` reads `state.stopRequested` at the start of each epoch and of
each batch; `onCancel` sets it asynchronously.  The flag is modelled as a
function of the global count of flag checks performed so far: check `0` is
the start of epoch 1, checks `1 .. steps` are the batches of epoch 1, check
`steps + 1` is the start of epoch 2, and so on.  Parameters are an abstract
type `α`, and one `optimizer.minimize` call for batch `s` of epoch `e` is an
abstract update `upd e s : α → α`. -/

/-- Global index of the flag check at the start of epoch `e` (1-based). -/
def epochCheck (steps e : Nat) : Nat := (e - 1) * (steps + 1)

/-- Global index of the flag check at the start of batch `s` of epoch `e`. -/
def batchCheck (steps e s : Nat) : Nat := (e - 1) * (steps + 1) + 1 + s

/-- The inner batch loop: `rem` batches remain, the next one is step `s`;
each iteration first checks the flag (`if (state.stopRequested) break`) and
then applies one optimizer step. -/
def runBatchesFrom (flag : Nat → Bool) (upd : Nat → Nat → α → α)
    (steps e : Nat) : Nat → Nat → α → α
  | 0, _, p => p
  | rem + 1, s, p =>
    if flag (batchCheck steps e s) then p
    else runBatchesFrom flag upd steps e rem (s + 1) (upd e s p)

/-- All `steps` batches of epoch `e`. -/
def runEpochBatches (flag : Nat → Bool) (upd : Nat → Nat → α → α)
    (steps e : Nat) (p : α) : α :=
  runBatchesFrom flag upd steps e steps 0 p

/-- The outer epoch loop: `rem` epochs remain, the next one is epoch `e`;
each iteration first checks the flag (`if (state.stopRequested) break`). -/
def runEpochsFrom (flag : Nat → Bool) (upd : Nat → Nat → α → α)
    (steps : Nat) : Nat → Nat → α → α
  | 0, _, p => p
  | rem + 1, e, p =>
    if flag (epochCheck steps e) then p
    else runEpochsFrom flag upd steps rem (e + 1) (runEpochBatches flag upd steps e p)

/-- `trainLoop()`: epochs `1 .. epochs`, `steps` batches per epoch. -/
def trainLoopRun (flag : Nat → Bool) (upd : Nat → Nat → α → α)
    (steps epochs : Nat) (p : α) : α :=
  runEpochsFrom flag upd steps epochs 1 p

/-- Batch-loop runs are insensitive to the flag values outside the checks
they actually perform. -/
theorem runBatchesFrom_congr (flag flag' : Nat → Bool)
    (upd : Nat → Nat → α → α) (steps e : Nat) :
    ∀ (rem s : Nat) (p : α),
      (∀ s', s ≤ s' → s' < s + rem →
        flag (batchCheck steps e s') = flag' (batchCheck steps e s')) →
      runBatchesFrom flag upd steps e rem s p
        = runBatchesFrom flag' upd steps e rem s p := by
  intro rem
  induction rem with
  | zero => intro s p _; rfl
  | succ rem ih =>
    intro s p hagree
    unfold runBatchesFrom
    rw [hagree s (le_refl s) (by omega)]
    cases flag' (batchCheck steps e s) with
    | true => rfl
    | false =>
      simpa using ih (s + 1) (upd e s p)
        (fun s' h1 h2 => hagree s' (by omega) (by omega))

/-- C5: with the cancellation flag raised exactly from the epoch-2 start
check onwards (i.e. `onCancel` fired after epoch 1 completed and the flag,
once set, is never reset), (a) any batch whose check sees the flag applies
no optimizer step and leaves the parameters untouched, and (b) a 10-epoch
run returns exactly the parameters produced by a full, uncancelled epoch 1 —
neither rolled back nor advanced further. -/
theorem mf_cancellation_after_epoch_one (flag : Nat → Bool)
    (upd : Nat → Nat → α → α) (steps : Nat) (p : α)
    (hflag : ∀ t, flag t = true ↔ epochCheck steps 2 ≤ t) :
    (∀ (e s rem : Nat) (q : α), flag (batchCheck steps e s) = true →
        runBatchesFrom flag upd steps e (rem + 1) s q = q) ∧
    trainLoopRun flag upd steps 10 p
      = runEpochBatches (fun _ => false) upd steps 1 p := by
  have hec2 : epochCheck steps 2 = steps + 1 := by
    unfold epochCheck; ring
  constructor
  · intro e s rem q hq
    unfold runBatchesFrom
    rw [hq]
    simp
  · have h1 : flag (epochCheck steps 1) = false := by
      rw [← Bool.not_eq_true]
      intro h
      have := (hflag _).mp h
      unfold epochCheck at this
      omega
    have h2 : flag (epochCheck steps 2) = true :=
      (hflag _).mpr le_rfl
    unfold trainLoopRun
    show runEpochsFrom flag upd steps 10 1 p = _
    unfold runEpochsFrom
    rw [h1]
    unfold runEpochsFrom
    rw [h2]
    unfold runEpochBatches
    apply runBatchesFrom_congr
    intro s' hs0 hs1
    have : flag (batchCheck steps 1 s') = false := by
      rw [← Bool.not_eq_true]
      intro h
      have := (hflag _).mp h
      unfold batchCheck epochCheck at this
      omega
    simp [this]

/-- Concrete flag for the cancellation witness: raised exactly from check
`3` on (epoch-2 start when `steps = 2`). -/
def cancelFlagW : Nat → Bool := fun t => decide (3 ≤ t)

theorem mf_cancellation_after_epoch_one_witness :
    (∀ t, cancelFlagW t = true ↔ epochCheck 2 2 ≤ t) ∧
    ((∀ (e s rem : Nat) (q : Nat), cancelFlagW (batchCheck 2 e s) = true →
        runBatchesFrom cancelFlagW (fun _ _ n => n + 1) 2 e (rem + 1) s q = q) ∧
      trainLoopRun cancelFlagW (fun _ _ n => n + 1) 2 10 0
        = runEpochBatches (fun _ => false) (fun _ _ n => n + 1) 2 1 0) :=
  ⟨fun t => by simp [cancelFlagW, epochCheck],
    mf_cancellation_after_epoch_one cancelFlagW (fun _ _ n => n + 1) 2 0
      (fun t => by simp [cancelFlagW, epochCheck])⟩

/-! ## Week 3 — MF recommender and explanation parts
(`recommendForUser`, week3/script.js:377-436)

Candidates carry the clipped prediction and the explanation parts
`{mu, bu, bi, dot}`.  The purely presentational fields (`rank`, raw ids,
title, genres) are omitted; `parts.mu` is `STATS.mean`, the same scalar the
model stores as `state.mu`. -/

structure MFParts where
  mu : ℚ
  bu : ℚ
  bi : ℚ
  dot : ℚ
deriving DecidableEq, Repr

structure MFCand where
  item : Nat
  pred : ℚ
  parts : MFParts
deriving DecidableEq, Repr

/-- One candidate row pushed by `recommendForUser` for an unseen item `i`:
`pred = predArr[i]` (clipped) and
`parts = { mu, bu: buVal, bi: biArr[i], dot: dotArr[i] }`. -/
def mkCand (m : MFModel) (u i : Nat) : MFCand :=
  { item := i
    pred := readoutPred m u i
    parts := { mu := m.mu, bu := m.bu u, bi := m.bi i, dot := dotQP m u i } }

/-- `recommendForUser(u, topN)`: build a candidate for every unseen item,
sort by descending `pred` (`candidates.sort((a,b) => b.pred - a.pred)`),
and keep the first `topN`. -/
def recommendForUser (m : MFModel) (seen : Nat → Bool) (u topN : Nat) :
    List MFCand :=
  let candidates := (List.range m.I).filterMap fun i =>
    if seen i then none else some (mkCand m u i)
  (candidates.mergeSort fun a b => decide (b.pred ≤ a.pred)).take topN

/-- A model whose single item has linear score `3 + 10 = 13`, far above the
clip ceiling `5`. -/
def mfCexModel : MFModel :=
  { U := 1, I := 1, k := 1
    P := fun _ _ => 10
    Q := fun _ _ => 1
    bu := fun _ => 0
    bi := fun _ => 0
    mu := 3 }

/-- C9 counterexample: for the candidate produced for user 0 of `mfCexModel`,
the explanation parts sum to the unclipped score 13 while the displayed
prediction is the clipped 5, so `mu + bu + bi + dot ≈ pred` fails by 8,
far beyond the tolerance `1e-3`. -/
theorem mf_explanation_parts_cex :
    mkCand mfCexModel 0 0 ∈ recommendForUser mfCexModel (fun _ => false) 0 10 ∧
    ¬ |(mkCand mfCexModel 0 0).parts.mu + (mkCand mfCexModel 0 0).parts.bu +
        (mkCand mfCexModel 0 0).parts.bi + (mkCand mfCexModel 0 0).parts.dot -
        (mkCand mfCexModel 0 0).pred| ≤ 1 / 1000 := by
  constructor
  · simp [recommendForUser, mfCexModel, List.range_succ]
  · norm_num [mkCand, mfCexModel, readoutPred, dotQP, clipByValue,
      Finset.sum_range_succ]

/-- C9 amended: for every candidate produced by `recommendForUser`, the
explanation parts recompose the *unclipped* linear score, and the displayed
prediction is its clip to `[1,5]`; consequently `mu + bu + bi + dot`
matches the prediction within `1e-3` exactly when the linear score already
lies in `[1,5]`. -/
theorem mf_explanation_parts_amended (m : MFModel) (seen : Nat → Bool)
    (u topN : Nat) (c : MFCand) (hc : c ∈ recommendForUser m seen u topN) :
    c.pred = clipByValue (c.parts.mu + c.parts.bu + c.parts.bi + c.parts.dot) 1 5 ∧
    (1 ≤ c.parts.mu + c.parts.bu + c.parts.bi + c.parts.dot ∧
      c.parts.mu + c.parts.bu + c.parts.bi + c.parts.dot ≤ 5 →
      |c.parts.mu + c.parts.bu + c.parts.bi + c.parts.dot - c.pred| ≤ 1 / 1000) := by
  have hmem : c ∈ (List.range m.I).filterMap fun i =>
      if seen i then none else some (mkCand m u i) := by
    have h1 := List.mem_of_mem_take hc
    exact List.mem_mergeSort.mp h1
  obtain ⟨i, _, hi⟩ := List.mem_filterMap.mp hmem
  by_cases hs : seen i
  · simp [hs] at hi
  · simp only [hs, if_neg, Bool.false_eq_true, not_false_iff, ite_false] at hi
    injection hi with hi
    subst hi
    have hpred : (mkCand m u i).pred
        = clipByValue ((mkCand m u i).parts.mu + (mkCand m u i).parts.bu +
            (mkCand m u i).parts.bi + (mkCand m u i).parts.dot) 1 5 := by
      show readoutPred m u i = _
      unfold readoutPred mkCand
      congr 1
      ring
    refine ⟨hpred, fun hrange => ?_⟩
    rw [hpred]
    set x := (mkCand m u i).parts.mu + (mkCand m u i).parts.bu +
      (mkCand m u i).parts.bi + (mkCand m u i).parts.dot with hx
    have : clipByValue x 1 5 = x := by
      unfold clipByValue
      rw [max_eq_left hrange.1, min_eq_left hrange.2]
    rw [this, sub_self, abs_zero]
    norm_num

theorem mf_explanation_parts_amended_witness :
    mkCand mfWitnessModel 0 0 ∈
        recommendForUser mfWitnessModel (fun _ => false) 0 10 ∧
    ((mkCand mfWitnessModel 0 0).pred
        = clipByValue ((mkCand mfWitnessModel 0 0).parts.mu +
            (mkCand mfWitnessModel 0 0).parts.bu +
            (mkCand mfWitnessModel 0 0).parts.bi +
            (mkCand mfWitnessModel 0 0).parts.dot) 1 5 ∧
      (1 ≤ (mkCand mfWitnessModel 0 0).parts.mu +
            (mkCand mfWitnessModel 0 0).parts.bu +
            (mkCand mfWitnessModel 0 0).parts.bi +
            (mkCand mfWitnessModel 0 0).parts.dot ∧
        (mkCand mfWitnessModel 0 0).parts.mu +
            (mkCand mfWitnessModel 0 0).parts.bu +
            (mkCand mfWitnessModel 0 0).parts.bi +
            (mkCand mfWitnessModel 0 0).parts.dot ≤ 5 →
        |(mkCand mfWitnessModel 0 0).parts.mu +
            (mkCand mfWitnessModel 0 0).parts.bu +
            (mkCand mfWitnessModel 0 0).parts.bi +
            (mkCand mfWitnessModel 0 0).parts.dot -
            (mkCand mfWitnessModel 0 0).pred| ≤ 1 / 1000)) :=
  ⟨by simp [recommendForUser, mfWitnessModel, List.range_succ],
    mf_explanation_parts_amended mfWitnessModel (fun _ => false) 0 10
      (mkCand mfWitnessModel 0 0)
      (by simp [recommendForUser, mfWitnessModel, List.range_succ])⟩

/-! ## Week 4 — positive-pair construction with threshold fallback
(`buildMappingsAndAggregates`, week4/app.js:144-193; `CONFIG.posThreshold = 4`)

Interactions are the dense triples `(u, i, rating)` (raw→dense mapping is
the excluded loader's job). -/

/-- One pass of `if (rating >= threshold) ST.positives.push({u,i})` over the
interactions. -/
def buildPositives (threshold : ℚ) (inter : List (Nat × Nat × ℚ)) :
    List (Nat × Nat) :=
  inter.filterMap fun t => if threshold ≤ t.2.2 then some (t.1, t.2.1) else none

/-- The positive set actually kept by `buildMappingsAndAggregates`: built at
`CONFIG.posThreshold = 4`, then rebuilt at threshold `3` when fewer than
1000 positives resulted. -/
def buildPositivesWithFallback (inter : List (Nat × Nat × ℚ)) :
    List (Nat × Nat) :=
  let pos := buildPositives 4 inter
  if pos.length < 1000 then buildPositives 3 inter else pos

/-- C10: with the default positive threshold 4, fewer than 1000 resulting
pairs trigger an automatic rebuild of the positive set from all interactions
with rating ≥ 3; otherwise the threshold-4 set is kept, and the rebuilt set
is exactly the rating ≥ 3 filter of the interactions. -/
theorem positives_threshold_fallback (inter : List (Nat × Nat × ℚ)) :
    ((buildPositives 4 inter).length < 1000 →
      buildPositivesWithFallback inter = buildPositives 3 inter) ∧
    (¬ (buildPositives 4 inter).length < 1000 →
      buildPositivesWithFallback inter = buildPositives 4 inter) ∧
    buildPositives 3 inter
      = inter.filterMap fun t =>
          if (3 : ℚ) ≤ t.2.2 then some (t.1, t.2.1) else none := by
  refine ⟨fun h => ?_, fun h => ?_, rfl⟩
  · unfold buildPositivesWithFallback
    rw [if_pos h]
  · unfold buildPositivesWithFallback
    rw [if_neg h]

theorem positives_threshold_fallback_witness :
    (buildPositives 4 [(0, 0, (5 : ℚ))]).length < 1000 ∧
    buildPositivesWithFallback [(0, 0, (5 : ℚ))]
      = buildPositives 3 [(0, 0, (5 : ℚ))] :=
  ⟨by
    have h45 : (4 : ℚ) ≤ 5 := by norm_num
    simp [buildPositives, h45],
    (positives_threshold_fallback [(0, 0, (5 : ℚ))]).1
      (by
        have h45 : (4 : ℚ) ≤ 5 := by norm_num
        simp [buildPositives, h45])⟩

/-! ## Week 4 — recommendation filtering
(`recommendForRawUser`, week4/app.js:1413-1437; `getTopKForUser`,
week4/app.js:1770-1779)

`getTopKForUser` scores all items against the user embedding and returns the
`min(K, numItems)` best, sorted by descending score (`tf.topk(·, ·, true)`).
`recommendForRawUser` requests `min(numItems, max(K*5, 200))` candidates and
walks them in order, skipping already-seen items, until `K` survive. -/

/-- `tf.topk` over the per-item score vector: indices of `[0, numItems)`
sorted by descending score, truncated to `min(K, numItems)`. -/
def getTopKForUser (score : Nat → ℚ) (numItems K : Nat) : List Nat :=
  ((List.range numItems).mergeSort fun a b => decide (score b ≤ score a)).take
    (min K numItems)

/-- The collection loop of `recommendForRawUser`: walk the candidates in
order while fewer than `K` items have been kept, skipping seen items. -/
def recommendLoop (seen : Nat → Bool) : Nat → List Nat → List Nat
  | _, [] => []
  | K, i :: rest =>
    if K = 0 then []
    else if seen i then recommendLoop seen K rest
    else i :: recommendLoop seen (K - 1) rest

/-- `recommendForRawUser(rawUserId, K)` after the raw→dense lookup: filter
the inflated top-K candidate list down to `K` unseen items. -/
def recommendForRawUser (score : Nat → ℚ) (numItems : Nat)
    (seen : Nat → Bool) (K : Nat) : List Nat :=
  recommendLoop seen K (getTopKForUser score numItems (min numItems (max (K * 5) 200)))

theorem recommendLoop_not_seen (seen : Nat → Bool) :
    ∀ (l : List Nat) (K i : Nat), i ∈ recommendLoop seen K l → seen i = false := by
  intro l
  induction l with
  | nil => intro K i h; simp [recommendLoop] at h
  | cons j rest ih =>
    intro K i h
    unfold recommendLoop at h
    by_cases hK : K = 0
    · simp [hK] at h
    · rw [if_neg hK] at h
      by_cases hs : seen j
      · rw [if_pos hs] at h
        exact ih K i h
      · rw [if_neg hs] at h
        rcases List.mem_cons.mp h with h | h
        · subst h; exact Bool.not_eq_true _ |>.mp hs
        · exact ih (K - 1) i h

theorem recommendLoop_length_le (seen : Nat → Bool) :
    ∀ (l : List Nat) (K : Nat), (recommendLoop seen K l).length ≤ K := by
  intro l
  induction l with
  | nil => intro K; simp [recommendLoop]
  | cons j rest ih =>
    intro K
    unfold recommendLoop
    by_cases hK : K = 0
    · simp [hK]
    · rw [if_neg hK]
      by_cases hs : seen j
      · rw [if_pos hs]; exact ih K
      · rw [if_neg hs]
        have := ih (K - 1)
        simp only [List.length_cons]
        omega

theorem recommendLoop_sublist (seen : Nat → Bool) :
    ∀ (l : List Nat) (K : Nat), (recommendLoop seen K l).Sublist l := by
  intro l
  induction l with
  | nil => intro K; simp [recommendLoop]
  | cons j rest ih =>
    intro K
    unfold recommendLoop
    by_cases hK : K = 0
    · simp [hK]
    · rw [if_neg hK]
      by_cases hs : seen j
      · rw [if_pos hs]; exact (ih K).cons j
      · rw [if_neg hs]; exact (ih (K - 1)).cons₂ j

/-- C4: the recommendation list never contains a seen item, has at most `K`
entries, is an in-order sublist of the `min(numItems, max(5K, 200))`
candidates returned by `getTopKForUser`, and inherits their descending
score order. -/
theorem recommend_excludes_seen_and_truncates (score : Nat → ℚ)
    (numItems : Nat) (seen : Nat → Bool) (K : Nat) :
    (∀ i ∈ recommendForRawUser score numItems seen K, seen i = false) ∧
    (recommendForRawUser score numItems seen K).length ≤ K ∧
    (recommendForRawUser score numItems seen K).Sublist
      (getTopKForUser score numItems (min numItems (max (K * 5) 200))) ∧
    (recommendForRawUser score numItems seen K).Pairwise
      (fun a b => score b ≤ score a) := by
  refine ⟨fun i hi => recommendLoop_not_seen seen _ K i hi,
    recommendLoop_length_le seen _ K, recommendLoop_sublist seen _ K, ?_⟩
  have hsorted : ((List.range numItems).mergeSort
      fun a b => decide (score b ≤ score a)).Pairwise
        (fun a b => decide (score b ≤ score a) = true) := by
    apply List.sorted_mergeSort
    · intro a b c hab hbc
      simp only [decide_eq_true_eq] at *
      exact le_trans hbc hab
    · intro a b
      simp only [Bool.or_eq_true, decide_eq_true_eq]
      exact le_total (score b) (score a)
  have htake : (getTopKForUser score numItems (min numItems (max (K * 5) 200))).Pairwise
      (fun a b => decide (score b ≤ score a) = true) :=
    List.Pairwise.sublist (List.take_sublist _ _) hsorted
  have hrec := List.Pairwise.sublist (recommendLoop_sublist seen _ K) htake
  exact hrec.imp fun h => by simpa using h

/-! ## Week 4 — item-embedding cache of the two-tower model
(`trainStep`, week4/app.js:1702-1740; `setFeatures`, week4/app.js:1577-1606;
`materializeItemEmbeddings`, week4/app.js:1751-1768;
`_invalidateItemCache`, week4/app.js:1782-1785)

The parameters (embedding tables, dense layers and feature matrices) are an
abstract state `α`; the per-item forward pass they induce is
`itemEmb : α → Nat → β`.  The fields `_cacheDirty` / `_cachedItemEmb` are
modelled verbatim; a `trainStep` (optimizer update, then
`_invalidateItemCache`) and a `setFeatures` call (feature replacement, then
`_invalidateItemCache`) both transform the parameters by an arbitrary
function. -/

structure TTCacheState (α β : Type) where
  params : α
  cacheDirty : Bool
  cachedItemEmb : Option (List β)

/-- Constructor state: `_cachedItemEmb = null`, `_cacheDirty = true`. -/
def ttInit (p : α) : TTCacheState α β :=
  { params := p, cacheDirty := true, cachedItemEmb := none }

/-- `_invalidateItemCache()`. -/
def ttInvalidate (s : TTCacheState α β) : TTCacheState α β :=
  { params := s.params, cacheDirty := true, cachedItemEmb := none }

/-- The chunk loop of `materializeItemEmbeddings`: forward-passes
`[start, min(start+batch, numItems))` and recurses at `start + batch`; the
fuel argument (instantiated at `numItems`) only witnesses termination of the
source's `for (start = 0; start < numItems; start += batch)` loop. -/
def matChunksGo (f : Nat → β) (numItems batch : Nat) : Nat → Nat → List β
  | 0, _ => []
  | fuel + 1, start =>
    if start < numItems then
      ((List.range (min (start + batch) numItems - start)).map fun j => f (start + j))
        ++ matChunksGo f numItems batch fuel (start + batch)
    else []

/-- `tf.concat(chunks, 0)` of all chunks of `materializeItemEmbeddings`. -/
def materializeCompute (f : Nat → β) (numItems batch : Nat) : List β :=
  matChunksGo f numItems batch numItems 0

/-- The chunked computation agrees with a single full-range forward pass. -/
theorem matChunksGo_eq (f : Nat → β) (numItems batch : Nat) (hb : 0 < batch) :
    ∀ (fuel start : Nat), numItems ≤ start + fuel * batch →
      matChunksGo f numItems batch fuel start
        = (List.range (numItems - start)).map fun j => f (start + j) := by
  intro fuel
  induction fuel with
  | zero =>
    intro start h
    have : numItems - start = 0 := by omega
    simp [matChunksGo, this]
  | succ fuel ih =>
    intro start h
    have hmul : (fuel + 1) * batch = fuel * batch + batch := by ring
    unfold matChunksGo
    by_cases hlt : start < numItems
    · rw [if_pos hlt]
      rw [ih (start + batch) (by omega)]
      by_cases hend : start + batch < numItems
      · have hminle : min (start + batch) numItems = start + batch :=
          Nat.min_eq_left (le_of_lt hend)
        have hmin : min (start + batch) numItems - start = batch := by
          rw [hminle]; omega
        have hsplit : numItems - start = batch + (numItems - (start + batch)) := by
          omega
        rw [hmin, hsplit, List.range_add, List.map_append]
        congr 1
        rw [List.map_map]
        apply List.map_congr_left
        intro j _
        simp only [Function.comp]
        congr 1
        omega
      · have hminle : min (start + batch) numItems = numItems :=
          Nat.min_eq_right (by omega)
        have hmin : min (start + batch) numItems - start = numItems - start := by
          rw [hminle]
        have hrest : numItems - (start + batch) = 0 := by omega
        simp [hmin, hrest]
    · rw [if_neg hlt]
      have : numItems - start = 0 := by omega
      simp [this]

/-- The whole chunked materialization is the forward pass over `[0, numItems)`. -/
theorem materializeCompute_eq (f : Nat → β) (numItems batch : Nat)
    (hb : 0 < batch) :
    materializeCompute f numItems batch = (List.range numItems).map f := by
  unfold materializeCompute
  have h1 : numItems * 1 ≤ numItems * batch := Nat.mul_le_mul_left numItems hb
  rw [Nat.mul_one] at h1
  rw [matChunksGo_eq f numItems batch hb numItems 0 (by omega)]
  simp

/-- `materializeItemEmbeddings(batch)`: serve the cache when it is clean and
present, otherwise recompute from the current parameters in chunks and cache
the result.  Returns the served matrix together with the successor state. -/
def ttMaterialize (f : α → Nat → β) (numItems batch : Nat)
    (s : TTCacheState α β) : List β × TTCacheState α β :=
  match s.cacheDirty, s.cachedItemEmb with
  | false, some m => (m, s)
  | _, _ =>
    let m := materializeCompute (f s.params) numItems batch
    (m, { params := s.params, cacheDirty := false, cachedItemEmb := some m })

/-- The operations that touch the model between materializations. -/
inductive TTOp (α : Type) where
  | train (upd : α → α)
  | setFeatures (upd : α → α)
  | materialize

/-- One externally visible operation of the two-tower model. -/
def ttStep (f : α → Nat → β) (numItems batch : Nat) :
    TTOp α → TTCacheState α β → TTCacheState α β
  | .train upd, s =>
    ttInvalidate { params := upd s.params, cacheDirty := s.cacheDirty,
                   cachedItemEmb := s.cachedItemEmb }
  | .setFeatures upd, s =>
    ttInvalidate { params := upd s.params, cacheDirty := s.cacheDirty,
                   cachedItemEmb := s.cachedItemEmb }
  | .materialize, s => (ttMaterialize f numItems batch s).2

def ttRun (f : α → Nat → β) (numItems batch : Nat) (ops : List (TTOp α))
    (s0 : TTCacheState α β) : TTCacheState α β :=
  ops.foldl (fun s op => ttStep f numItems batch op s) s0

/-- Cache coherence invariant: a clean cache holds exactly the forward pass
of the current parameters. -/
def ttInv (f : α → Nat → β) (numItems : Nat) (s : TTCacheState α β) : Prop :=
  s.cacheDirty = false →
    s.cachedItemEmb = some ((List.range numItems).map (f s.params))

theorem ttStep_inv (f : α → Nat → β) (numItems batch : Nat) (hb : 0 < batch)
    (op : TTOp α) (s : TTCacheState α β) (hs : ttInv f numItems s) :
    ttInv f numItems (ttStep f numItems batch op s) := by
  cases op with
  | train upd => intro h; simp [ttStep, ttInvalidate] at h
  | setFeatures upd => intro h; simp [ttStep, ttInvalidate] at h
  | materialize =>
    intro h
    unfold ttStep ttMaterialize at *
    cases hd : s.cacheDirty with
    | false =>
      cases hc : s.cachedItemEmb with
      | none =>
        simp only [hd, hc] at h ⊢
        rw [materializeCompute_eq (f s.params) numItems batch hb]
      | some m =>
        simp only [hd, hc] at h ⊢
        have := hs hd
        rw [hc] at this
        rw [this]
    | true =>
      simp only [hd] at h ⊢
      rw [materializeCompute_eq (f s.params) numItems batch hb]

theorem ttRun_inv (f : α → Nat → β) (numItems batch : Nat) (hb : 0 < batch)
    (ops : List (TTOp α)) :
    ∀ (s : TTCacheState α β), ttInv f numItems s →
      ttInv f numItems (ttRun f numItems batch ops s) := by
  induction ops with
  | nil => intro s hs; exact hs
  | cons op rest ih =>
    intro s hs
    exact ih _ (ttStep_inv f numItems batch hb op s hs)

/-- C7: after any sequence of training steps, feature changes and
materializations starting from a freshly built model, (a) a `trainStep`
invalidates the cache, (b) a `setFeatures` call invalidates the cache, and
(c) `materializeItemEmbeddings` returns exactly the forward pass of the
*current* parameters over all items — a cached matrix is served only when it
is still that forward pass, never stale. -/
theorem tt_item_cache_never_stale (f : α → Nat → β) (numItems batch : Nat)
    (hb : 0 < batch) :
    (∀ (upd : α → α) (s : TTCacheState α β),
        (ttStep f numItems batch (.train upd) s).cacheDirty = true ∧
        (ttStep f numItems batch (.train upd) s).cachedItemEmb = none) ∧
    (∀ (upd : α → α) (s : TTCacheState α β),
        (ttStep f numItems batch (.setFeatures upd) s).cacheDirty = true ∧
        (ttStep f numItems batch (.setFeatures upd) s).cachedItemEmb = none) ∧
    (∀ (ops : List (TTOp α)) (p0 : α),
        (ttMaterialize f numItems batch (ttRun f numItems batch ops (ttInit p0))).1
          = (List.range numItems).map
              (f (ttRun f numItems batch ops (ttInit p0)).params)) := by
  refine ⟨fun upd s => ⟨rfl, rfl⟩, fun upd s => ⟨rfl, rfl⟩, fun ops p0 => ?_⟩
  have hinv : ttInv f numItems (ttRun f numItems batch ops (ttInit p0)) := by
    apply ttRun_inv f numItems batch hb
    intro h
    simp [ttInit] at h
  set s := ttRun f numItems batch ops (ttInit p0) with hsdef
  unfold ttMaterialize
  cases hd : s.cacheDirty with
  | false =>
    cases hc : s.cachedItemEmb with
    | none =>
      simp only [hd, hc]
      rw [materializeCompute_eq (f s.params) numItems batch hb]
    | some m =>
      simp only [hd, hc]
      have := hinv hd
      rw [hc] at this
      exact Option.some.inj this
  | true =>
    simp only [hd]
    rw [materializeCompute_eq (f s.params) numItems batch hb]

theorem tt_item_cache_never_stale_witness :
    (0 : Nat) < 1 ∧
    (ttMaterialize (fun (p : Nat) (i : Nat) => p + i) 2 1
        (ttRun (fun (p : Nat) (i : Nat) => p + i) 2 1
          [TTOp.train Nat.succ, TTOp.materialize] (ttInit 0))).1
      = (List.range 2).map
          (fun i =>
            (ttRun (fun (p : Nat) (i : Nat) => p + i) 2 1
              [TTOp.train Nat.succ, TTOp.materialize] (ttInit 0)).params + i) :=
  ⟨by decide,
    (tt_item_cache_never_stale (fun (p : Nat) (i : Nat) => p + i) 2 1
      (by decide)).2.2 [TTOp.train Nat.succ, TTOp.materialize] 0⟩

/-! ## Week 4 — BPR negative sampling
(`_sampleNegatives`, week4/app.js:1787-1797)

For position `k` the source runs `let neg = pos; while (neg === pos)
neg = (Math.random() * numItems) | 0;`.  The successive draws
`(Math.random() * numItems) | 0` for position `k` are an explicit stream
`r k : Nat → Nat`; the loop keeps drawing until the draw differs from the
positive.  `sampleNegFuel` is the loop with an explicit iteration budget:
`none` means the loop has not terminated within `fuel` draws. -/

def sampleNegFuel (r : Nat → Nat) (pos : Nat) : Nat → Nat → Option Nat
  | _, 0 => none
  | t, fuel + 1 =>
    if r t = pos then sampleNegFuel r pos (t + 1) fuel else some (r t)

/-- The rejection loop for one position never terminates on this draw
stream: divergence of the `while (neg === pos)` loop. -/
def sampleNegDiverges (r : Nat → Nat) (pos : Nat) : Prop :=
  ∀ fuel, sampleNegFuel r pos 0 fuel = none

/-- The per-position loop, mapped over the batch `posItemIdxs`; position `k`
uses stream `r k`.  `none` as soon as any position fails to terminate
within `fuel` draws. -/
def sampleNegList (r : Nat → Nat → Nat) (fuel : Nat) :
    Nat → List Nat → Option (List Nat)
  | _, [] => some []
  | k, pos :: rest =>
    match sampleNegFuel (r k) pos 0 fuel, sampleNegList r fuel (k + 1) rest with
    | some v, some vs => some (v :: vs)
    | _, _ => none

/-- `_sampleNegatives(posItemIdxs)` with the draw streams made explicit. -/
def sampleNegatives (r : Nat → Nat → Nat) (fuel : Nat)
    (posItemIdxs : List Nat) : Option (List Nat) :=
  sampleNegList r fuel 0 posItemIdxs

/-- C8 counterexample: over the 2-item universe, with the positive `0` and a
draw stream that (legitimately) returns `0` on every draw, the rejection
loop of `_sampleNegatives` never terminates — there is no bound on its
retries, contradicting the claimed bounded retry. -/
theorem bpr_sampler_unbounded_cex :
    sampleNegFuel (fun _ => 0) 0 0 100 = none ∧
    sampleNegDiverges (fun _ => 0) 0 := by
  have hgen : ∀ (fuel t : Nat), sampleNegFuel (fun _ => 0) 0 t fuel = none := by
    intro fuel
    induction fuel with
    | zero => intro t; rfl
    | succ fuel ih => intro t; simpa [sampleNegFuel] using ih (t + 1)
  exact ⟨hgen 100 0, fun fuel => hgen fuel 0⟩

/-- The loop for one position returns the first draw that differs from the
positive, provided the budget covers it. -/
theorem sampleNegFuel_first_success (r : Nat → Nat) (pos : Nat) :
    ∀ (fuel T t : Nat), r (t + T) ≠ pos → (∀ s, s < T → r (t + s) = pos) →
      T < fuel → sampleNegFuel r pos t fuel = some (r (t + T)) := by
  intro fuel
  induction fuel with
  | zero => intro T t _ _ h; omega
  | succ fuel ih =>
    intro T t hT hmin hlt
    unfold sampleNegFuel
    cases T with
    | zero =>
      rw [if_neg (by simpa using hT)]
      simp
    | succ S =>
      have h0 : r t = pos := by simpa using hmin 0 (Nat.succ_pos S)
      rw [if_pos h0]
      have := ih S (t + 1) (by
          have : t + 1 + S = t + (S + 1) := by omega
          rw [this]; exact hT)
        (fun s hs => by
          have : t + 1 + s = t + (s + 1) := by omega
          rw [this]; exact hmin (s + 1) (by omega))
        (by omega)
      rw [this]
      congr 2
      omega

/-- Batch version, generalized over the position offset `k0`. -/
theorem sampleNegList_spec (numItems : Nat) (r : Nat → Nat → Nat)
    (T : Nat → Nat) (fuel : Nat)
    (hr : ∀ k t, r k t < numItems) (hfuel : ∀ k, T k < fuel) :
    ∀ (L : List Nat) (k0 : Nat),
      (∀ (k : Nat) (hk : k < L.length),
        r (k0 + k) (T (k0 + k)) ≠ L.get ⟨k, hk⟩ ∧
        ∀ s, s < T (k0 + k) → r (k0 + k) s = L.get ⟨k, hk⟩) →
      ∃ out, sampleNegList r fuel k0 L = some out ∧
        out.length = L.length ∧
        ∀ (k : Nat) (hk : k < L.length) (hk' : k < out.length),
          out.get ⟨k, hk'⟩ = r (k0 + k) (T (k0 + k)) ∧
          out.get ⟨k, hk'⟩ ≠ L.get ⟨k, hk⟩ ∧
          out.get ⟨k, hk'⟩ < numItems := by
  intro L
  induction L with
  | nil =>
    intro k0 _
    exact ⟨[], rfl, rfl, fun k hk _ => absurd hk (by simp)⟩
  | cons pos rest ih =>
    intro k0 hT
    have hhead := hT 0 (by simp)
    have hheadne : r (k0 + 0) (T (k0 + 0)) ≠ pos := by simpa using hhead.1
    have hheadmin : ∀ s, s < T (k0 + 0) → r (k0 + 0) s = pos := by
      simpa using hhead.2
    have hone : sampleNegFuel (r k0) pos 0 fuel
        = some (r k0 (0 + T (k0 + 0))) := by
      have := sampleNegFuel_first_success (r k0) pos fuel (T (k0 + 0)) 0
        (by simpa using hheadne) (fun s hs => by simpa using hheadmin s hs)
        (by simpa using hfuel (k0 + 0))
      simpa using this
    obtain ⟨outT, houtT, hlenT, hgetT⟩ := ih (k0 + 1)
      (fun k hk => by
        have := hT (k + 1) (by simpa using Nat.succ_lt_succ hk)
        constructor
        · have h1 : k0 + 1 + k = k0 + (k + 1) := by omega
          rw [h1]
          exact this.1
        · intro s hs
          have h1 : k0 + 1 + k = k0 + (k + 1) := by omega
          rw [h1] at hs ⊢
          exact this.2 s hs)
    refine ⟨r k0 (0 + T (k0 + 0)) :: outT, ?_, by simpa using hlenT, ?_⟩
    · unfold sampleNegList
      rw [hone, houtT]
    · intro k hk hk'
      cases k with
      | zero =>
        refine ⟨by simp, by simpa using hheadne, by simpa using hr k0 _⟩
      | succ k =>
        have hk2 : k < rest.length := by simpa using hk
        have hk2' : k < outT.length := by simpa using hk'
        have := hgetT k hk2 hk2'
        have h1 : k0 + 1 + k = k0 + (k + 1) := by omega
        rw [h1] at this
        exact ⟨this.1, this.2.1, this.2.2⟩

/-- C8 amended: for a batch over an item universe of size `numItems ≥ 2`,
the sampler's rejection loop is *unbounded*; for any draw streams that, at
each position `k`, eventually produce a value different from
`posItemIdxs[k]` (with `T k` rejected draws first), it terminates once the
budget exceeds every `T k` and returns at each position the first draw from
the full item set differing from that position's positive — already-seen
items are not excluded. -/
theorem bpr_sample_negatives_amended (numItems : Nat) (r : Nat → Nat → Nat)
    (T : Nat → Nat) (fuel : Nat) (posItemIdxs : List Nat)
    (hn : 2 ≤ numItems) (hr : ∀ k t, r k t < numItems)
    (hfuel : ∀ k, T k < fuel)
    (hT : ∀ (k : Nat) (hk : k < posItemIdxs.length),
      r k (T k) ≠ posItemIdxs.get ⟨k, hk⟩ ∧
      ∀ s, s < T k → r k s = posItemIdxs.get ⟨k, hk⟩) :
    ∃ out, sampleNegatives r fuel posItemIdxs = some out ∧
      out.length = posItemIdxs.length ∧
      ∀ (k : Nat) (hk : k < posItemIdxs.length) (hk' : k < out.length),
        out.get ⟨k, hk'⟩ = r k (T k) ∧
        out.get ⟨k, hk'⟩ ≠ posItemIdxs.get ⟨k, hk⟩ ∧
        out.get ⟨k, hk'⟩ < numItems := by
  have := sampleNegList_spec numItems r T fuel hr hfuel posItemIdxs 0
    (fun k hk => by simpa using hT k hk)
  obtain ⟨out, hout, hlen, hget⟩ := this
  refine ⟨out, hout, hlen, fun k hk hk' => ?_⟩
  have := hget k hk hk'
  simpa using this

/-- Draw stream for the witness: position-independent draws `0, 1, 1, 1, …`
over the 2-item universe. -/
def bprWitnessDraws : Nat → Nat → Nat := fun _ t => min t 1

/-- First-success indices for the witness: one rejected draw per position. -/
def bprWitnessT : Nat → Nat := fun _ => 1

theorem bprWitnessDraws_lt : ∀ k t, bprWitnessDraws k t < 2 := by
  intro k t
  have := Nat.min_le_right t 1
  unfold bprWitnessDraws
  omega

theorem bprWitnessT_lt : ∀ k, bprWitnessT k < 2 := by
  intro k
  unfold bprWitnessT
  omega

theorem bprWitnessHT : ∀ (k : Nat) (hk : k < [0].length),
    bprWitnessDraws k (bprWitnessT k) ≠ [0].get ⟨k, hk⟩ ∧
    ∀ s, s < bprWitnessT k → bprWitnessDraws k s = [0].get ⟨k, hk⟩ := by
  intro k hk
  have hk0 : k = 0 := by simpa using hk
  subst hk0
  constructor
  · unfold bprWitnessDraws bprWitnessT
    simp
  · intro s hs
    unfold bprWitnessT at hs
    have hs0 : s = 0 := by omega
    subst hs0
    unfold bprWitnessDraws
    simp

theorem bpr_sample_negatives_amended_witness :
    (2 ≤ 2 ∧
      (∀ k t, bprWitnessDraws k t < 2) ∧
      (∀ k, bprWitnessT k < 2) ∧
      (∀ (k : Nat) (hk : k < [0].length),
        bprWitnessDraws k (bprWitnessT k) ≠ [0].get ⟨k, hk⟩ ∧
        ∀ s, s < bprWitnessT k → bprWitnessDraws k s = [0].get ⟨k, hk⟩)) ∧
    (∃ out, sampleNegatives bprWitnessDraws 2 [0] = some out ∧
      out.length = [0].length ∧
      ∀ (k : Nat) (hk : k < [0].length) (hk' : k < out.length),
        out.get ⟨k, hk'⟩ = bprWitnessDraws k (bprWitnessT k) ∧
        out.get ⟨k, hk'⟩ ≠ [0].get ⟨k, hk⟩ ∧
        out.get ⟨k, hk'⟩ < 2) :=
  ⟨⟨le_refl 2, bprWitnessDraws_lt, bprWitnessT_lt, bprWitnessHT⟩,
    bpr_sample_negatives_amended 2 bprWitnessDraws bprWitnessT 2 [0]
      (le_refl 2) bprWitnessDraws_lt bprWitnessT_lt bprWitnessHT⟩

/-! ## Week 4 — in-batch softmax loss
(`_softmaxInBatchLoss`, week4/app.js:1678-1687 and 2029-2038)

The tower outputs `U` and `Ipos` are `B × D` real matrices; batches produced
by `batchIterator` are never empty, so the batch size is written `B + 1`.
`tf.logSumExp` is modelled the way the library computes it (max-shifted for
stability): `max + log(sum(exp(x - max)))`. -/

/-- `tf.matMul(U, Ipos, false, true)`: the `B × B` logit matrix. -/
noncomputable def ttLogits {B D : Nat} (U Ipos : Fin B → Fin D → ℝ) :
    Fin B → Fin B → ℝ :=
  fun a b => ∑ d, U a d * Ipos b d

/-- `tf.eye(B)`. -/
def tfEye (B : Nat) : Fin B → Fin B → ℝ :=
  fun a b => if a = b then 1 else 0

/-- `tf.logSumExp(v)` along one row, as the library computes it:
`M + log(sum(exp(v - M)))` for `M` the row maximum. -/
noncomputable def tfLogSumExp {n : Nat} (v : Fin (n + 1) → ℝ) : ℝ :=
  Finset.univ.sup' Finset.univ_nonempty v +
    Real.log (∑ j, Real.exp (v j - Finset.univ.sup' Finset.univ_nonempty v))

/-- `_softmaxInBatchLoss(U, Ipos)`: `logits = U·Ipos^T`,
`rowLSE = logSumExp(logits, 1)`, `diag = sum(logits ∘ eye, 1)`,
`loss = -mean(diag - rowLSE)`. -/
noncomputable def softmaxInBatchLoss {B D : Nat}
    (U Ipos : Fin (B + 1) → Fin D → ℝ) : ℝ :=
  -((∑ a, ((∑ b, ttLogits U Ipos a b * tfEye (B + 1) a b)
      - tfLogSumExp (ttLogits U Ipos a))) / (B + 1))

/-- The spec's formula, written from its words: with `L = U · Ipos^T`,
`loss = -mean over rows of (L[a][a] - log ∑_b exp L[a][b])`. -/
noncomputable def specSoftmaxInBatchLoss {B D : Nat}
    (U Ipos : Fin (B + 1) → Fin D → ℝ) : ℝ :=
  -((∑ a, (ttLogits U Ipos a a -
      Real.log (∑ b, Real.exp (ttLogits U Ipos a b)))) / (B + 1))

/-- The max-shifted `logSumExp` is the plain `log ∘ sum ∘ exp`. -/
theorem tfLogSumExp_eq {n : Nat} (v : Fin (n + 1) → ℝ) :
    tfLogSumExp v = Real.log (∑ j, Real.exp (v j)) := by
  unfold tfLogSumExp
  set M := Finset.univ.sup' Finset.univ_nonempty v with hM
  have hpos : (0 : ℝ) < ∑ j, Real.exp (v j) :=
    Finset.sum_pos (fun j _ => Real.exp_pos _) Finset.univ_nonempty
  have hsum : (∑ j, Real.exp (v j - M))
      = (∑ j, Real.exp (v j)) * Real.exp (-M) := by
    rw [Finset.sum_mul]
    refine Finset.sum_congr rfl fun j _ => ?_
    rw [← Real.exp_add, sub_eq_add_neg]
  rw [hsum, Real.log_mul (ne_of_gt hpos) (ne_of_gt (Real.exp_pos _)),
    Real.log_exp]
  ring

/-- C3: for every batch of `B ≥ 1` user/positive-item tower outputs, the
in-batch softmax loss computed by the code — eye-masked diagonal, max-shifted
`logSumExp`, negated mean — equals
`-mean(diag(L) - logsumexp(L, axis=1))` for `L = U · Ipos^T`. -/
theorem tt_softmax_in_batch_loss_eq {B D : Nat}
    (U Ipos : Fin (B + 1) → Fin D → ℝ) :
    softmaxInBatchLoss U Ipos = specSoftmaxInBatchLoss U Ipos := by
  unfold softmaxInBatchLoss specSoftmaxInBatchLoss
  congr 2
  refine Finset.sum_congr rfl fun a _ => ?_
  have hdiag : (∑ b, ttLogits U Ipos a b * tfEye (B + 1) a b)
      = ttLogits U Ipos a a := by
    simp [tfEye, mul_ite, mul_one, mul_zero, Finset.sum_ite_eq]
  rw [hdiag, tfLogSumExp_eq]

end HseRecSys
